import Mathlib

/-!
Verification of the inventory-consistency and forecasting core of the
AICASE supply-chain assistant (`db_utils.py`, `forecast_utils.py`,
`agents/agentsscm.py`).

The `daily_data` table is embedded as a list of rows held in ascending
date order (every read in the source is `ORDER BY date`, so the sorted
list is the observable state of the table).  Calendar dates are day
numbers (`Nat`); advancing one calendar day is `+ 1`.  SQL `UPDATE ...
WHERE date = d` becomes a keyed map over the list, `INSERT` becomes an
order-preserving insertion.  Python floats are modelled as rationals,
`numpy` random arrays as explicit input functions, and an exception
raised mid-loop as a failure predicate on rows (uncommitted work is
discarded when the connection closes, so a raised exception leaves the
table at its last committed state).
-/

set_option autoImplicit false

namespace AICase

/-- One row of the `daily_data` table: primary key `date`, integer
`demand` and `production_plan`, nullable integer `forecast`, signed
derived `inventory`. -/
structure Row where
  date : Nat
  demand : Int
  production_plan : Int
  forecast : Option Int
  inventory : Int
  deriving DecidableEq, Repr

/-- The representation invariant of the embedded table: rows appear in
strictly ascending date order (dates are a primary key, so they are
distinct). -/
def SortedT (t : List Row) : Prop :=
  List.Pairwise (fun a b => a.date < b.date) t

instance (t : List Row) : Decidable (SortedT t) := by
  unfold SortedT; infer_instance

/-- Carry-in query of `db_utils.recalculate_inventory_from`:
`SELECT inventory FROM daily_data WHERE date < start ORDER BY date DESC
LIMIT 1`, defaulting to 0 when no earlier row exists.  The first row of
the descending order is the last row of the ascending order. -/
def prevInventory (t : List Row) (d : Nat) : Int :=
  match (t.filter (fun r => decide (r.date < d))).getLast? with
  | some r => r.inventory
  | none => 0

/-- `UPDATE daily_data SET inventory = v WHERE date = d`. -/
def setInventory (t : List Row) (d : Nat) (v : Int) : List Row :=
  t.map (fun r => if r.date = d then { r with inventory := v } else r)

/-- The write-back loop of `recalculate_inventory_from`: iterate over the
pre-fetched rows, threading `running_inventory` and updating each row by
its date key. -/
def recalcLoop : List Row → Int → List Row → List Row
  | t, _, [] => t
  | t, running, r :: rs =>
    recalcLoop (setInventory t r.date (running + r.production_plan - r.demand))
      (running + r.production_plan - r.demand) rs

/-- `db_utils.recalculate_inventory_from(start_date)`: read the carry-in,
fetch all rows with `date >= start_date` in ascending order, then run the
cumulative update loop. -/
def recalculate_inventory_from (d : Nat) (t : List Row) : List Row :=
  recalcLoop t (prevInventory t d) (t.filter (fun r => decide (d ≤ r.date)))

/-- Pure cumulative scan: what the update loop produces on the selected
rows themselves. -/
def recalcRows (c : Int) : List Row → List Row
  | [] => []
  | r :: rs =>
    { r with inventory := c + r.production_plan - r.demand } ::
      recalcRows (c + r.production_plan - r.demand) rs

/-- Checker for the cumulative inventory invariant: walking the table in
stored order with carry `carry` (the inventory of the previous stored
row, 0 before the first row), every row whose date satisfies `p` must
have `inventory = carry + production_plan - demand`. -/
def chainOk (carry : Int) (p : Nat → Bool) : List Row → Bool
  | [] => true
  | r :: rs =>
    ((!(p r.date)) || (r.inventory == carry + r.production_plan - r.demand))
      && chainOk r.inventory p rs

/-- Inventory carried out of a row list: the inventory of its last row,
or the incoming carry if the list is empty. -/
def lastInv (c : Int) : List Row → Int
  | [] => c
  | r :: rs => lastInv r.inventory rs

/-- Projection of a row onto everything except `inventory`, used to state
frame properties of the recalculation. -/
def rowShape (r : Row) : Nat × Int × Int × Option Int :=
  (r.date, r.demand, r.production_plan, r.forecast)

theorem map_eq_self_of {f : Row → Row} {l : List Row} (h : ∀ a ∈ l, f a = a) :
    l.map f = l := by
  induction l with
  | nil => rfl
  | cons x xs ih =>
    simp only [List.map_cons, h x (by simp), ih (fun a ha => h a (by simp [ha]))]

theorem lastInv_eq_getLast (c : Int) (l : List Row) :
    lastInv c l = ((l.getLast?).map Row.inventory).getD c := by
  induction l generalizing c with
  | nil => rfl
  | cons r rs ih =>
    cases rs with
    | nil => rfl
    | cons x xs => simpa [lastInv, List.getLast?_cons_cons] using ih r.inventory

theorem prevInventory_eq_lastInv (t : List Row) (d : Nat) :
    prevInventory t d = lastInv 0 (t.filter (fun r => decide (r.date < d))) := by
  rw [lastInv_eq_getLast, prevInventory]
  cases (t.filter (fun r => decide (r.date < d))).getLast? <;> rfl

theorem chainOk_append (c : Int) (p : Nat → Bool) (A B : List Row) :
    chainOk c p (A ++ B) = (chainOk c p A && chainOk (lastInv c A) p B) := by
  induction A generalizing c with
  | nil => simp [chainOk, lastInv]
  | cons r rs ih => simp [chainOk, lastInv, ih, Bool.and_assoc]

theorem chainOk_of_none (c : Int) (p : Nat → Bool) (l : List Row)
    (h : ∀ r ∈ l, p r.date = false) : chainOk c p l = true := by
  induction l generalizing c with
  | nil => rfl
  | cons r rs ih =>
    simp only [chainOk, h r (by simp), Bool.not_false, Bool.true_or, Bool.true_and]
    exact ih r.inventory (fun x hx => h x (by simp [hx]))

theorem chainOk_recalcRows (p : Nat → Bool) (l : List Row) (c : Int) :
    chainOk c p (recalcRows c l) = true := by
  induction l generalizing c with
  | nil => rfl
  | cons r rs ih => simp [recalcRows, chainOk, ih]

theorem filter_split_sorted {t : List Row} (hs : SortedT t) (d : Nat) :
    t.filter (fun r => decide (r.date < d)) ++ t.filter (fun r => decide (d ≤ r.date)) = t := by
  induction t with
  | nil => rfl
  | cons r rs ih =>
    rcases List.pairwise_cons.mp hs with ⟨hr, hrs⟩
    by_cases hd : r.date < d
    · have hd2 : ¬ d ≤ r.date := by omega
      simp only [List.filter_cons, decide_eq_true_eq, if_pos hd, if_neg hd2]
      simpa using ih hrs
    · push_neg at hd
      have h1 : rs.filter (fun r => decide (r.date < d)) = [] := by
        rw [List.filter_eq_nil_iff]
        intro x hx
        have := hr x hx
        simp only [decide_eq_true_eq]
        omega
      have h2 : rs.filter (fun r => decide (d ≤ r.date)) = rs := by
        rw [List.filter_eq_self]
        intro x hx
        have := hr x hx
        simp only [decide_eq_true_eq]
        omega
      have hd3 : ¬ r.date < d := by omega
      simp only [List.filter_cons, decide_eq_true_eq, if_neg hd3, if_pos hd]
      simp [h1, h2]

theorem recalcLoop_split (B : List Row) :
    ∀ (A : List Row) (c : Int),
      (∀ a ∈ A, ∀ b ∈ B, a.date ≠ b.date) →
      List.Pairwise (fun x y => x.date ≠ y.date) B →
      recalcLoop (A ++ B) c B = A ++ recalcRows c B := by
  induction B with
  | nil => intro A c _ _; simp [recalcLoop, recalcRows]
  | cons r rs ih =>
    intro A c hAB hB
    rcases List.pairwise_cons.mp hB with ⟨hr, hrs⟩
    have hset : setInventory (A ++ r :: rs) r.date (c + r.production_plan - r.demand)
        = A ++ { r with inventory := c + r.production_plan - r.demand } :: rs := by
      unfold setInventory
      rw [List.map_append]
      congr 1
      · exact map_eq_self_of (fun a ha => by
          simp [hAB a ha r (by simp)])
      · simp only [List.map_cons, if_pos rfl]
        congr 1
        exact map_eq_self_of (fun x hx => by
          have hne : r.date ≠ x.date := hr x hx
          simp [hne.symm])
    show recalcLoop (setInventory (A ++ r :: rs) r.date (c + r.production_plan - r.demand))
        (c + r.production_plan - r.demand) rs = _
    rw [hset]
    have hA2 : ∀ a ∈ A ++ [{ r with inventory := c + r.production_plan - r.demand }],
        ∀ b ∈ rs, a.date ≠ b.date := by
      intro a ha b hb
      rcases List.mem_append.mp ha with h | h
      · exact hAB a h b (by simp [hb])
      · simp only [List.mem_singleton] at h
        subst h
        exact hr b hb
    have hmain := ih (A ++ [{ r with inventory := c + r.production_plan - r.demand }])
      (c + r.production_plan - r.demand) hA2 hrs
    rw [List.append_assoc] at hmain
    simpa [recalcRows] using hmain

theorem recalc_split {t : List Row} (hs : SortedT t) (d : Nat) :
    recalculate_inventory_from d t =
      t.filter (fun r => decide (r.date < d)) ++
        recalcRows (prevInventory t d) (t.filter (fun r => decide (d ≤ r.date))) := by
  have hsplit := filter_split_sorted hs d
  have hAB : ∀ a ∈ t.filter (fun r => decide (r.date < d)),
      ∀ b ∈ t.filter (fun r => decide (d ≤ r.date)), a.date ≠ b.date := by
    intro a ha b hb
    have ha2 := List.of_mem_filter ha
    have hb2 := List.of_mem_filter hb
    simp only [decide_eq_true_eq] at ha2 hb2
    omega
  have hBpair : List.Pairwise (fun x y : Row => x.date ≠ y.date)
      (t.filter (fun r => decide (d ≤ r.date))) :=
    (List.Pairwise.filter _ hs).imp (fun h => Nat.ne_of_lt h)
  have hmain := recalcLoop_split (t.filter (fun r => decide (d ≤ r.date)))
    (t.filter (fun r => decide (r.date < d))) (prevInventory t d) hAB hBpair
  rw [hsplit] at hmain
  exact hmain

theorem recalc_chainOk (d : Nat) (t : List Row) (hs : SortedT t) :
    chainOk 0 (fun x => decide (d ≤ x)) (recalculate_inventory_from d t) = true := by
  rw [recalc_split hs d, chainOk_append]
  have h1 : chainOk 0 (fun x => decide (d ≤ x))
      (t.filter (fun r => decide (r.date < d))) = true := by
    apply chainOk_of_none
    intro r hr
    have hlt := List.of_mem_filter hr
    simp only [decide_eq_true_eq] at hlt
    simp only [decide_eq_false_iff_not, Nat.not_le]
    exact hlt
  rw [h1, ← prevInventory_eq_lastInv, chainOk_recalcRows]
  rfl

/-- C1: after `recalculate_inventory_from(start_date)`, every stored date
at or after `start_date` satisfies the cumulative inventory equation, in
ascending stored order, with the carry-in for the first processed date
taken from the last stored date before `start_date` (0 if none). -/
theorem recalculate_inventory_from_restores_invariant
    (d : Nat) (t : List Row) (hs : SortedT t) :
    chainOk 0 (fun x => decide (d ≤ x)) (recalculate_inventory_from d t) = true :=
  recalc_chainOk d t hs

/-- Witness for C1 at a concrete two-row table with a date gap. -/
theorem recalculate_inventory_from_restores_invariant_witness :
    SortedT [⟨1, 5, 7, none, 99⟩, ⟨3, 2, 1, none, 0⟩] ∧
    chainOk 0 (fun x => decide (2 ≤ x))
      (recalculate_inventory_from 2 [⟨1, 5, 7, none, 99⟩, ⟨3, 2, 1, none, 0⟩]) = true :=
  ⟨by decide, recalculate_inventory_from_restores_invariant 2 _ (by decide)⟩

theorem setInventory_map_rowShape (t : List Row) (k : Nat) (v : Int) :
    (setInventory t k v).map rowShape = t.map rowShape := by
  unfold setInventory
  rw [List.map_map]
  apply List.map_congr_left
  intro r _
  by_cases h : r.date = k <;> simp [h, rowShape]

theorem recalcLoop_map_rowShape (rows : List Row) :
    ∀ (t : List Row) (c : Int), (recalcLoop t c rows).map rowShape = t.map rowShape := by
  induction rows with
  | nil => intro t c; rfl
  | cons r rs ih =>
    intro t c
    show (recalcLoop (setInventory t r.date _) _ rs).map rowShape = _
    rw [ih, setInventory_map_rowShape]

theorem setInventory_filter_lt (t : List Row) (k : Nat) (v : Int) (d : Nat) (hdk : d ≤ k) :
    (setInventory t k v).filter (fun r => decide (r.date < d)) =
      t.filter (fun r => decide (r.date < d)) := by
  induction t with
  | nil => rfl
  | cons x xs ih =>
    unfold setInventory at ih ⊢
    by_cases h : x.date = k
    · have hxd : ¬ x.date < d := by omega
      simp only [List.map_cons, if_pos h, List.filter_cons]
      simp [hxd]
      exact ih
    · simp only [List.map_cons, if_neg h, List.filter_cons]
      by_cases h2 : x.date < d
      · simp [h2]
        exact ih
      · simp [h2]
        exact ih

theorem recalcLoop_filter_lt (d : Nat) (rows : List Row)
    (hrows : ∀ r ∈ rows, d ≤ r.date) :
    ∀ (t : List Row) (c : Int),
      (recalcLoop t c rows).filter (fun r => decide (r.date < d)) =
        t.filter (fun r => decide (r.date < d)) := by
  induction rows with
  | nil => intro t c; rfl
  | cons r rs ih =>
    intro t c
    show ((recalcLoop (setInventory t r.date _) _ rs).filter _) = _
    rw [ih (fun x hx => hrows x (by simp [hx])),
      setInventory_filter_lt t r.date _ d (hrows r (by simp))]

/-- C9: `recalculate_inventory_from(start_date)` writes only the
`inventory` column of rows with `date >= start_date`: the date, demand,
production plan and forecast of every row are unchanged (first
conjunct), and every row dated before `start_date` is completely
unchanged (second conjunct). -/
theorem recalculate_inventory_from_frame (d : Nat) (t : List Row) :
    (recalculate_inventory_from d t).map rowShape = t.map rowShape ∧
    (recalculate_inventory_from d t).filter (fun r => decide (r.date < d)) =
      t.filter (fun r => decide (r.date < d)) := by
  constructor
  · exact recalcLoop_map_rowShape _ t (prevInventory t d)
  · apply recalcLoop_filter_lt
    intro r hr
    have := List.of_mem_filter hr
    simpa using this

/-- Result tag of a point update: `ok` for the success message, `notFound`
for the "No record found for date ..." message returned when
`cursor.rowcount == 0`. -/
inductive UpdMsg where
  | ok
  | notFound
  deriving DecidableEq, Repr

/-- `db_utils.update_demand(date, value)`: run the `UPDATE`, commit, then
report not-found when no row matched; otherwise recalculate inventory
from that date. -/
def update_demand (t : List Row) (d : Nat) (v : Int) : List Row × UpdMsg :=
  let t2 := t.map (fun r => if r.date = d then { r with demand := v } else r)
  if t.any (fun r => decide (r.date = d)) then (recalculate_inventory_from d t2, UpdMsg.ok)
  else (t2, UpdMsg.notFound)

/-- `db_utils.update_production_plan(date, value)`: same shape as
`update_demand` on the `production_plan` column. -/
def update_production_plan (t : List Row) (d : Nat) (v : Int) : List Row × UpdMsg :=
  let t2 := t.map (fun r => if r.date = d then { r with production_plan := v } else r)
  if t.any (fun r => decide (r.date = d)) then (recalculate_inventory_from d t2, UpdMsg.ok)
  else (t2, UpdMsg.notFound)

/-- `db_utils.update_forecast(date, value)`: point update of the
`forecast` column; no recalculation is triggered. -/
def update_forecast (t : List Row) (d : Nat) (v : Int) : List Row × UpdMsg :=
  let t2 := t.map (fun r => if r.date = d then { r with forecast := some v } else r)
  if t.any (fun r => decide (r.date = d)) then (t2, UpdMsg.ok)
  else (t2, UpdMsg.notFound)

theorem map_point_update_eq_self {d : Nat} {f : Row → Row} {t : List Row}
    (hd : ∀ r ∈ t, r.date ≠ d) :
    (t.map (fun r => if r.date = d then f r else r)) = t :=
  map_eq_self_of (fun r hr => by simp [hd r hr])

/-- C8: a point update (`update_demand`, `update_production_plan`,
`update_forecast`) on a date with no existing record reports not-found,
creates no row, and leaves the whole table unchanged. -/
theorem point_update_missing_date_no_change
    (t : List Row) (d : Nat) (vd vp vf : Int) (hd : ∀ r ∈ t, r.date ≠ d) :
    update_demand t d vd = (t, UpdMsg.notFound) ∧
    update_production_plan t d vp = (t, UpdMsg.notFound) ∧
    update_forecast t d vf = (t, UpdMsg.notFound) := by
  have hany : t.any (fun r => decide (r.date = d)) = false := by
    rw [List.any_eq_false]
    intro r hr
    simp [hd r hr]
  refine ⟨?_, ?_, ?_⟩ <;>
    simp [update_demand, update_production_plan, update_forecast, hany,
      map_point_update_eq_self hd]

/-- Witness for C8 on a one-row table and a missing date. -/
theorem point_update_missing_date_no_change_witness :
    update_demand [⟨1, 2, 3, none, 4⟩] 5 10 = ([⟨1, 2, 3, none, 4⟩], UpdMsg.notFound) ∧
    update_production_plan [⟨1, 2, 3, none, 4⟩] 5 11 = ([⟨1, 2, 3, none, 4⟩], UpdMsg.notFound) ∧
    update_forecast [⟨1, 2, 3, none, 4⟩] 5 12 = ([⟨1, 2, 3, none, 4⟩], UpdMsg.notFound) :=
  point_update_missing_date_no_change [⟨1, 2, 3, none, 4⟩] 5 10 11 12 (by decide)

/-- Result tag of `increase_all_demand`: `zeroOffset` for "Offset is
zero; no changes made.", `noData` for "No data available to update.",
`success` for the success message, `rolledBack` for the error message
returned after `conn.rollback()`. -/
inductive IncMsg where
  | zeroOffset
  | noData
  | success
  | rolledBack
  deriving DecidableEq, Repr

/-- Date of the first fetched row (`rows[0][0]` of the `ORDER BY date`
selection); 0 is never used because the empty case is handled first. -/
def firstDate (t : List Row) : Nat :=
  match t.head? with
  | some r => r.date
  | none => 0

/-- Update loop of `increase_all_demand`: for each pre-fetched row, write
`demand + offset` back by date key into the open transaction. -/
def updateDemandLoop (k : Int) : List Row → List Row → List Row
  | buf, [] => buf
  | buf, r :: rs =>
    updateDemandLoop k
      (buf.map (fun x => if x.date = r.date then { x with demand := r.demand + k } else x)) rs

/-- `db_utils.increase_all_demand(offset)`: no-op messages for a zero
offset or an empty table, otherwise update every row and recalculate
inventory from the first stored date. -/
def increase_all_demand (t : List Row) (k : Int) : List Row × IncMsg :=
  if k = 0 then (t, IncMsg.zeroOffset)
  else if t = [] then (t, IncMsg.noData)
  else (recalculate_inventory_from (firstDate t) (updateDemandLoop k t t), IncMsg.success)

/-- Update loop of `increase_all_demand` with an injected failure: the
row at which the loop raises is modelled by the predicate `fails`; `none`
means an exception escaped before `conn.commit()`. -/
def updateDemandLoopExc (fails : Row → Bool) (k : Int) :
    List Row → List Row → Option (List Row)
  | buf, [] => some buf
  | buf, r :: rs =>
    if fails r then none
    else updateDemandLoopExc fails k
      (buf.map (fun x => if x.date = r.date then { x with demand := r.demand + k } else x)) rs

/-- `db_utils.increase_all_demand` under an injected mid-loop exception:
on failure the handler rolls the transaction back (the buffered updates
are discarded, the committed table is unchanged) and returns the error
message. -/
def increase_all_demand_fallible (fails : Row → Bool) (t : List Row) (k : Int) :
    List Row × IncMsg :=
  if k = 0 then (t, IncMsg.zeroOffset)
  else if t = [] then (t, IncMsg.noData)
  else
    match updateDemandLoopExc fails k t t with
    | some t2 => (recalculate_inventory_from (firstDate t) t2, IncMsg.success)
    | none => (t, IncMsg.rolledBack)

theorem updateDemandLoop_split (k : Int) (rows : List Row) :
    ∀ (A : List Row),
      (∀ a ∈ A, ∀ b ∈ rows, a.date ≠ b.date) →
      List.Pairwise (fun x y => x.date ≠ y.date) rows →
      updateDemandLoop k (A ++ rows) rows =
        A ++ rows.map (fun r => { r with demand := r.demand + k }) := by
  induction rows with
  | nil => intro A _ _; simp [updateDemandLoop]
  | cons r rs ih =>
    intro A hAB hB
    rcases List.pairwise_cons.mp hB with ⟨hr, hrs⟩
    have hset : (A ++ r :: rs).map
        (fun x => if x.date = r.date then { x with demand := r.demand + k } else x)
        = A ++ { r with demand := r.demand + k } :: rs := by
      rw [List.map_append]
      congr 1
      · exact map_eq_self_of (fun a ha => by
          simp [hAB a ha r (by simp)])
      · simp only [List.map_cons, if_pos rfl]
        congr 1
        exact map_eq_self_of (fun x hx => by
          have hne : r.date ≠ x.date := hr x hx
          simp [hne.symm])
    show updateDemandLoop k
        ((A ++ r :: rs).map
          (fun x => if x.date = r.date then { x with demand := r.demand + k } else x)) rs = _
    rw [hset]
    have hA2 : ∀ a ∈ A ++ [{ r with demand := r.demand + k }], ∀ b ∈ rs, a.date ≠ b.date := by
      intro a ha b hb
      rcases List.mem_append.mp ha with h | h
      · exact hAB a h b (by simp [hb])
      · simp only [List.mem_singleton] at h
        subst h
        exact hr b hb
    have hmain := ih (A ++ [{ r with demand := r.demand + k }]) hA2 hrs
    rw [List.append_assoc] at hmain
    simpa using hmain

theorem sortedT_map_of_date_eq (f : Row → Row) (hf : ∀ r, (f r).date = r.date)
    {t : List Row} (hs : SortedT t) : SortedT (t.map f) := by
  unfold SortedT at hs ⊢
  rw [List.pairwise_map]
  exact hs.imp (fun {a b} h => by simpa [hf a, hf b] using h)

theorem sorted_head_le {t : List Row} (hs : SortedT t) :
    ∀ r ∈ t, firstDate t ≤ r.date := by
  cases t with
  | nil => intro r hr; cases hr
  | cons x xs =>
    intro r hr
    rcases List.pairwise_cons.mp hs with ⟨hx, _⟩
    rcases List.mem_cons.mp hr with h | h
    · subst h; exact Nat.le_refl _
    · exact Nat.le_of_lt (hx r h)

theorem chainOk_congr (p q : Nat → Bool) (l : List Row)
    (h : ∀ r ∈ l, p r.date = q r.date) :
    ∀ c, chainOk c p l = chainOk c q l := by
  induction l with
  | nil => intro c; rfl
  | cons r rs ih =>
    intro c
    simp only [chainOk, h r (by simp), ih (fun x hx => h x (by simp [hx]))]

theorem recalc_map_date (d : Nat) (t : List Row) :
    (recalculate_inventory_from d t).map (fun r => r.date) = t.map (fun r => r.date) := by
  have h : (recalculate_inventory_from d t).map rowShape = t.map rowShape :=
    recalcLoop_map_rowShape _ t _
  have h2 := congrArg (List.map (fun x : Nat × Int × Int × Option Int => x.1)) h
  rw [List.map_map, List.map_map] at h2
  exact h2

theorem recalc_map_date_demand (d : Nat) (t : List Row) :
    (recalculate_inventory_from d t).map (fun r => (r.date, r.demand)) =
      t.map (fun r => (r.date, r.demand)) := by
  have h : (recalculate_inventory_from d t).map rowShape = t.map rowShape :=
    recalcLoop_map_rowShape _ t _
  have h2 := congrArg (List.map (fun x : Nat × Int × Int × Option Int => (x.1, x.2.1))) h
  rw [List.map_map, List.map_map] at h2
  exact h2

/-- C5: for a non-empty table and non-zero offset, `increase_all_demand`
adds the offset to every record (dates preserved), restores the
cumulative inventory invariant table-wide by recalculating from the
earliest stored date, and reports success; a zero offset or an empty
table changes nothing and returns the corresponding explicit message. -/
theorem increase_all_demand_offset_law (t : List Row) (k : Int) (hs : SortedT t) :
    (increase_all_demand t 0 = (t, IncMsg.zeroOffset)) ∧
    (k ≠ 0 → increase_all_demand [] k = ([], IncMsg.noData)) ∧
    (k ≠ 0 → t ≠ [] →
      (increase_all_demand t k).1.map (fun r => (r.date, r.demand)) =
          t.map (fun r => (r.date, r.demand + k)) ∧
      chainOk 0 (fun _ => true) (increase_all_demand t k).1 = true ∧
      (increase_all_demand t k).2 = IncMsg.success) := by
  refine ⟨by simp [increase_all_demand], fun hk => by simp [increase_all_demand, hk], ?_⟩
  intro hk ht
  have hpair : List.Pairwise (fun x y : Row => x.date ≠ y.date) t :=
    hs.imp (fun h => Nat.ne_of_lt h)
  have hloop : updateDemandLoop k t t = t.map (fun r => { r with demand := r.demand + k }) := by
    have := updateDemandLoop_split k t [] (by intro a ha; cases ha) hpair
    simpa using this
  have hres : increase_all_demand t k =
      (recalculate_inventory_from (firstDate t)
        (t.map (fun r => { r with demand := r.demand + k })), IncMsg.success) := by
    simp only [increase_all_demand, if_neg hk, if_neg ht, hloop]
  have hs2 : SortedT (t.map (fun r => { r with demand := r.demand + k })) :=
    sortedT_map_of_date_eq (fun r => { r with demand := r.demand + k }) (fun r => rfl) hs
  refine ⟨?_, ?_, by rw [hres]⟩
  · rw [hres]
    have h1 := recalc_map_date_demand (firstDate t)
      (t.map (fun r => { r with demand := r.demand + k }))
    rw [List.map_map] at h1
    simpa using h1
  · rw [hres]
    have hd := recalc_map_date (firstDate t)
      (t.map (fun r => { r with demand := r.demand + k }))
    rw [List.map_map] at hd
    have hmem : ∀ r ∈ recalculate_inventory_from (firstDate t)
        (t.map (fun r => { r with demand := r.demand + k })),
        firstDate t ≤ r.date := by
      intro r hr
      have : r.date ∈ (recalculate_inventory_from (firstDate t)
          (t.map (fun x => { x with demand := x.demand + k }))).map (fun x => x.date) :=
        List.mem_map_of_mem _ hr
      rw [hd] at this
      rcases List.mem_map.mp this with ⟨s, hsmem, hsd⟩
      simpa [← hsd] using sorted_head_le hs s hsmem
    have hcongr := chainOk_congr (fun _ => true)
      (fun x => decide (firstDate t ≤ x))
      (recalculate_inventory_from (firstDate t)
        (t.map (fun r => { r with demand := r.demand + k })))
      (fun r hr => by simp [hmem r hr]) 0
    rw [hcongr]
    exact recalc_chainOk (firstDate t) _ hs2

/-- Witness for C5 on a concrete two-row table with offset 2. -/
theorem increase_all_demand_offset_law_witness :
    (increase_all_demand [⟨2, 4, 9, none, 5⟩, ⟨4, 6, 1, some 3, 0⟩] 2).1.map
        (fun r => (r.date, r.demand)) =
      ([⟨2, 4, 9, none, 5⟩, ⟨4, 6, 1, some 3, 0⟩] : List Row).map
        (fun r => (r.date, r.demand + 2)) ∧
    chainOk 0 (fun _ => true)
      (increase_all_demand [⟨2, 4, 9, none, 5⟩, ⟨4, 6, 1, some 3, 0⟩] 2).1 = true ∧
    (increase_all_demand [⟨2, 4, 9, none, 5⟩, ⟨4, 6, 1, some 3, 0⟩] 2).2 = IncMsg.success :=
  (increase_all_demand_offset_law [⟨2, 4, 9, none, 5⟩, ⟨4, 6, 1, some 3, 0⟩] 2
    (by decide)).2.2 (by decide) (by decide)

theorem updateDemandLoopExc_eq_none (fails : Row → Bool) (k : Int) (rows : List Row)
    (h : ∃ r ∈ rows, fails r = true) :
    ∀ buf, updateDemandLoopExc fails k buf rows = none := by
  induction rows with
  | nil => rcases h with ⟨r, hr, _⟩; cases hr
  | cons r rs ih =>
    intro buf
    by_cases hf : fails r
    · simp [updateDemandLoopExc, hf]
    · rcases h with ⟨x, hx, hxf⟩
      rcases List.mem_cons.mp hx with h1 | h1
      · subst h1; exact absurd hxf hf
      · simp only [updateDemandLoopExc, if_neg hf]
        exact ih ⟨x, h1, hxf⟩ _

/-- C10: if the update loop of `increase_all_demand` raises before the
commit, the transaction is rolled back: the error message is returned
and the table is exactly its pre-call state (never a partial offset). -/
theorem increase_all_demand_atomic_rollback (fails : Row → Bool) (t : List Row) (k : Int)
    (hk : k ≠ 0) (ht : t ≠ []) (hf : ∃ r ∈ t, fails r = true) :
    increase_all_demand_fallible fails t k = (t, IncMsg.rolledBack) := by
  simp only [increase_all_demand_fallible, if_neg hk, if_neg ht,
    updateDemandLoopExc_eq_none fails k t hf t]

/-- Witness for C10: the loop fails at the second of two rows; the first
row keeps its original demand. -/
theorem increase_all_demand_atomic_rollback_witness :
    increase_all_demand_fallible (fun r => decide (r.date = 6))
        [⟨2, 4, 9, none, 5⟩, ⟨6, 1, 1, none, 0⟩] 3 =
      ([⟨2, 4, 9, none, 5⟩, ⟨6, 1, 1, none, 0⟩], IncMsg.rolledBack) :=
  increase_all_demand_atomic_rollback (fun r => decide (r.date = 6))
    [⟨2, 4, 9, none, 5⟩, ⟨6, 1, 1, none, 0⟩] 3 (by decide) (by decide) (by decide)

/-- Python `round(x, 2)` modelled over the rationals. -/
def round2 (q : ℚ) : ℚ := ((round (q * 100) : ℤ) : ℚ) / 100

/-- `forecast_utils.moving_average_forecast`, applied to the demand
series read from the table (pandas floats are modelled as rationals):
shrink the window to the history length when the history is shorter,
take the rolling mean at the last position (the mean of the last
`window` values), round it to two decimals and repeat it `periods`
times. -/
def moving_average_forecast (hist : List Int) (window : Nat) (periods : Nat) : List ℚ :=
  if hist = [] then []
  else
    let w := if hist.length < window then hist.length else window
    List.replicate periods
      (round2 ((((hist.drop (hist.length - w)).map (fun n : Int => (n : ℚ))).sum) / (w : ℚ)))

/-- Specification-side trailing mean: the mean of the last
`min window |hist|` values of the history, written by reversing and
taking, independently of the implementation by `drop`. -/
def trailingMean (hist : List Int) (window : Nat) : ℚ :=
  (((hist.reverse.take (min window hist.length)).map (fun n : Int => (n : ℚ))).sum) /
    ((min window hist.length : Nat) : ℚ)

/-- C6: on a non-empty demand history and window >= 1,
`moving_average_forecast` returns exactly `periods` copies of the mean
of the last `min(window, |history|)` demand values rounded to two
decimals (a flat forecast); on an empty history it returns the empty
list. -/
theorem moving_average_forecast_spec (hist : List Int) (window periods : Nat)
    (_hw : 1 ≤ window) :
    moving_average_forecast [] window periods = [] ∧
    (hist ≠ [] →
      moving_average_forecast hist window periods =
        List.replicate periods (round2 (trailingMean hist window))) := by
  refine ⟨rfl, fun ht => ?_⟩
  rw [moving_average_forecast, if_neg ht]
  have hmin : (if hist.length < window then hist.length else window)
      = min window hist.length := by
    split_ifs with h
    · exact (Nat.min_eq_right (Nat.le_of_lt h)).symm
    · exact (Nat.min_eq_left (Nat.le_of_not_lt h)).symm
  rw [hmin, trailingMean, List.take_reverse, List.map_reverse, List.sum_reverse]

/-- Witness for C6: history of three values, window 2. -/
theorem moving_average_forecast_spec_witness :
    moving_average_forecast [4, 7, 8] 2 3 =
      List.replicate 3 (round2 (trailingMean [4, 7, 8] 2)) :=
  (moving_average_forecast_spec [4, 7, 8] 2 3 (by decide)).2 (by decide)

/-- Forecast method selector of `forecast_from_date`. -/
inductive Method where
  | moving_average
  | exponential_smoothing
  deriving DecidableEq, Repr

/-- Earliest stored date (`min(str(row["date"]) for row in data)`); ISO
strings compare like day numbers.  Only used on non-empty tables. -/
def minDate : List Row → Nat
  | [] => 0
  | r :: rs => rs.foldl (fun m x => min m x.date) r.date

/-- `forecast_utils.exponential_smoothing_forecast`: the statsmodels
fit-and-forecast routine (including its final two-decimal rounding) is
an uninterpreted parameter `ses` taking the demand history, the
smoothing level and the number of periods. -/
def exponential_smoothing_forecast (ses : List Int → ℚ → Nat → List ℚ)
    (t : List Row) (alpha : ℚ) (periods : Nat) : List ℚ :=
  if t = [] then [] else ses (t.map (fun r => r.demand)) alpha periods

/-- Shared tail of `forecast_from_date`: the empty-history early return
followed by the method dispatch (same expressions as the standalone
forecast functions). -/
def applyMethod (ses : List Int → ℚ → Nat → List ℚ) (history : List Int)
    (periods : Nat) (method : Method) (alpha : ℚ) (window : Nat) : List ℚ :=
  if history = [] then []
  else
    match method with
    | Method.moving_average =>
      let w := if history.length < window then history.length else window
      List.replicate periods
        (round2 ((((history.drop (history.length - w)).map (fun n : Int => (n : ℚ))).sum) / (w : ℚ)))
    | Method.exponential_smoothing => ses history alpha periods

/-- `forecast_utils.forecast_from_date(start_date, periods, method,
alpha, window)`: empty result on an empty table; history clamped to the
full series when the anchor precedes the earliest stored date, otherwise
restricted to rows with `date <= anchor`; then the chosen method is
applied to the history. -/
def forecast_from_date (ses : List Int → ℚ → Nat → List ℚ) (t : List Row)
    (anchor : Nat) (periods : Nat) (method : Method) (alpha : ℚ) (window : Nat) : List ℚ :=
  if t = [] then []
  else if anchor < minDate t then
    applyMethod ses (t.map (fun r => r.demand)) periods method alpha window
  else
    applyMethod ses ((t.filter (fun r => decide (r.date ≤ anchor))).map (fun r => r.demand))
      periods method alpha window

/-- The forecast of the full stored series: the method dispatch of
`agentsscm.calculate_demand_forecast` when no anchor is given. -/
def forecast_unrestricted (ses : List Int → ℚ → Nat → List ℚ) (t : List Row)
    (periods : Nat) (method : Method) (alpha : ℚ) (window : Nat) : List ℚ :=
  match method with
  | Method.moving_average => moving_average_forecast (t.map (fun r => r.demand)) window periods
  | Method.exponential_smoothing => exponential_smoothing_forecast ses t alpha periods

theorem foldl_min_le_init (rs : List Row) :
    ∀ a : Nat, rs.foldl (fun m x => min m x.date) a ≤ a := by
  induction rs with
  | nil => intro a; exact Nat.le_refl a
  | cons r rs ih =>
    intro a
    exact Nat.le_trans (ih (min a r.date)) (Nat.min_le_left _ _)

theorem foldl_min_le_mem (rs : List Row) :
    ∀ a : Nat, ∀ x ∈ rs, rs.foldl (fun m x => min m x.date) a ≤ x.date := by
  induction rs with
  | nil => intro a x hx; cases hx
  | cons r rs ih =>
    intro a x hx
    rcases List.mem_cons.mp hx with h | h
    · subst h
      exact Nat.le_trans (foldl_min_le_init rs _) (Nat.min_le_right _ _)
    · exact ih (min a r.date) x h

theorem foldl_min_attained (rs : List Row) :
    ∀ a : Nat, rs.foldl (fun m x => min m x.date) a = a ∨
      ∃ x ∈ rs, rs.foldl (fun m x => min m x.date) a = x.date := by
  induction rs with
  | nil => intro a; exact Or.inl rfl
  | cons r rs ih =>
    intro a
    rcases ih (min a r.date) with h | ⟨x, hx, hxe⟩
    · rcases Nat.le_total a r.date with hle | hle
      · left
        simpa [Nat.min_eq_left hle] using h
      · right
        exact ⟨r, by simp, by simpa [Nat.min_eq_right hle] using h⟩
    · right
      exact ⟨x, by simp [hx], hxe⟩

theorem minDate_le {t : List Row} : ∀ r ∈ t, minDate t ≤ r.date := by
  cases t with
  | nil => intro r hr; cases hr
  | cons x xs =>
    intro r hr
    rcases List.mem_cons.mp hr with h | h
    · subst h; exact foldl_min_le_init xs _
    · exact foldl_min_le_mem xs _ r h

theorem minDate_mem {t : List Row} (ht : t ≠ []) : ∃ r ∈ t, r.date = minDate t := by
  cases t with
  | nil => exact absurd rfl ht
  | cons x xs =>
    rcases foldl_min_attained xs x.date with h | ⟨r, hr, hre⟩
    · exact ⟨x, by simp, h.symm⟩
    · exact ⟨r, by simp [hr], hre.symm⟩

/-- C7: `forecast_from_date` uses only records with `date <= anchor`:
when the anchor is at or after the earliest stored date, discarding all
later rows does not change the result; when the anchor precedes the
earliest stored date it is clamped and the result is the forecast of the
full stored series. -/
theorem forecast_from_date_anchor_restriction (ses : List Int → ℚ → Nat → List ℚ)
    (t : List Row) (anchor periods : Nat) (method : Method) (alpha : ℚ) (window : Nat) :
    (minDate t ≤ anchor →
      forecast_from_date ses t anchor periods method alpha window =
        forecast_from_date ses (t.filter (fun r => decide (r.date ≤ anchor)))
          anchor periods method alpha window) ∧
    (anchor < minDate t →
      forecast_from_date ses t anchor periods method alpha window =
        forecast_unrestricted ses t periods method alpha window) := by
  constructor
  · intro hge
    by_cases ht : t = []
    · subst ht; rfl
    · rcases minDate_mem ht with ⟨rm, hrm, hrmd⟩
      have hmemf : rm ∈ t.filter (fun r => decide (r.date ≤ anchor)) := by
        rw [List.mem_filter]
        exact ⟨hrm, by simp [hrmd, hge]⟩
      have htf : t.filter (fun r => decide (r.date ≤ anchor)) ≠ [] :=
        List.ne_nil_of_mem hmemf
      have hminf : minDate (t.filter (fun r => decide (r.date ≤ anchor))) = minDate t := by
        apply Nat.le_antisymm
        · have := minDate_le rm hmemf
          omega
        · rcases minDate_mem htf with ⟨s, hs, hsd⟩
          have hst : s ∈ t := List.mem_of_mem_filter hs
          have := minDate_le s hst
          omega
      have hff : (t.filter (fun r => decide (r.date ≤ anchor))).filter
          (fun r => decide (r.date ≤ anchor)) =
          t.filter (fun r => decide (r.date ≤ anchor)) := by
        rw [List.filter_eq_self]
        intro x hx
        exact (List.mem_filter.mp hx).2
      rw [forecast_from_date, forecast_from_date, if_neg ht, if_neg htf,
        if_neg (by omega : ¬ anchor < minDate t),
        if_neg (by omega : ¬ anchor < minDate (t.filter (fun r => decide (r.date ≤ anchor)))),
        hff]
  · intro hlt
    have ht : t ≠ [] := by
      intro h
      subst h
      simp [minDate] at hlt
    rw [forecast_from_date, if_neg ht, if_pos hlt]
    cases method with
    | moving_average =>
      show applyMethod ses (t.map (fun r => r.demand)) periods Method.moving_average alpha window
          = moving_average_forecast (t.map (fun r => r.demand)) window periods
      rw [applyMethod, moving_average_forecast]
    | exponential_smoothing =>
      show applyMethod ses (t.map (fun r => r.demand)) periods Method.exponential_smoothing alpha window
          = exponential_smoothing_forecast ses t alpha periods
      rw [applyMethod, exponential_smoothing_forecast, if_neg ht,
        if_neg (by simp [ht] : ¬ t.map (fun r => r.demand) = [])]

/-- Witness for C7: both the restriction part (anchor inside the stored
range) and the clamping part (anchor before the earliest date) at
concrete tables. -/
theorem forecast_from_date_anchor_restriction_witness :
    (forecast_from_date (fun h _ p => List.replicate p ((h.headD 0 : Int) : ℚ))
        [⟨3, 11, 0, none, 0⟩, ⟨5, 22, 0, none, 0⟩] 4 2 Method.exponential_smoothing (1/2) 3 =
      forecast_from_date (fun h _ p => List.replicate p ((h.headD 0 : Int) : ℚ))
        (([⟨3, 11, 0, none, 0⟩, ⟨5, 22, 0, none, 0⟩] : List Row).filter
          (fun r => decide (r.date ≤ 4)))
        4 2 Method.exponential_smoothing (1/2) 3) ∧
    (forecast_from_date (fun h _ p => List.replicate p ((h.headD 0 : Int) : ℚ))
        [⟨3, 11, 0, none, 0⟩, ⟨5, 22, 0, none, 0⟩] 1 2 Method.exponential_smoothing (1/2) 3 =
      forecast_unrestricted (fun h _ p => List.replicate p ((h.headD 0 : Int) : ℚ))
        [⟨3, 11, 0, none, 0⟩, ⟨5, 22, 0, none, 0⟩] 2 Method.exponential_smoothing (1/2) 3) :=
  ⟨(forecast_from_date_anchor_restriction (fun h _ p => List.replicate p ((h.headD 0 : Int) : ℚ))
      [⟨3, 11, 0, none, 0⟩, ⟨5, 22, 0, none, 0⟩] 4 2 Method.exponential_smoothing (1/2) 3).1
      (by decide),
   (forecast_from_date_anchor_restriction (fun h _ p => List.replicate p ((h.headD 0 : Int) : ℚ))
      [⟨3, 11, 0, none, 0⟩, ⟨5, 22, 0, none, 0⟩] 1 2 Method.exponential_smoothing (1/2) 3).2
      (by decide)⟩

/-- Python `int(x)`: truncation toward zero, modelled on the rationals. -/
def pyInt (q : ℚ) : Int := if q < 0 then ⌈q⌉ else ⌊q⌋

/-- Latest stored date (`max(row["date"] for row in data)`); only used on
non-empty tables. -/
def maxDate : List Row → Nat
  | [] => 0
  | r :: rs => rs.foldl (fun m x => max m x.date) r.date

/-- Persist loop of `agentsscm.calculate_demand_forecast`: for each
forecast value in order, call `db_utils.update_forecast` on `next_date`
with the value truncated by `int(...)`, then advance `next_date` by one
calendar day. -/
def writeForecastSeq (t : List Row) (d : Nat) : List ℚ → List Row
  | [] => t
  | v :: vs => writeForecastSeq (update_forecast t d (pyInt v)).1 (d + 1) vs

/-- Persistence phase of `agentsscm.calculate_demand_forecast` (the
forecast list itself is an input, computed by the float routines): an
empty forecast returns the no-data error without touching the table;
with data present, writing starts at the anchor date itself when one is
given, else at the day after the latest stored date. -/
def calculate_demand_forecast_persist (t : List Row) (anchor : Option Nat)
    (fvals : List ℚ) : List Row :=
  if fvals = [] then t
  else if t = [] then t
  else
    let next : Nat :=
      match anchor with
      | some s => s
      | none => maxDate t + 1
    writeForecastSeq t next fvals

theorem update_forecast_fst (t : List Row) (d : Nat) (v : Int) :
    (update_forecast t d v).1 =
      t.map (fun r => if r.date = d then { r with forecast := some v } else r) := by
  unfold update_forecast
  split <;> rfl

/-- Projection of a row onto everything except `forecast`, used to state
the frame property of forecast persistence. -/
def rowCore (r : Row) : Nat × Int × Int × Int :=
  (r.date, r.demand, r.production_plan, r.inventory)

theorem map_rowCore_forecast_write (t : List Row) (d : Nat) (v : Int) :
    (t.map (fun r => if r.date = d then { r with forecast := some v } else r)).map rowCore =
      t.map rowCore := by
  rw [List.map_map]
  apply List.map_congr_left
  intro r _
  by_cases h : r.date = d <;> simp [h, rowCore]

theorem writeForecastSeq_map_rowCore (fvals : List ℚ) :
    ∀ (t : List Row) (d : Nat), (writeForecastSeq t d fvals).map rowCore = t.map rowCore := by
  induction fvals with
  | nil => intro t d; rfl
  | cons v vs ih =>
    intro t d
    show (writeForecastSeq (update_forecast t d (pyInt v)).1 (d + 1) vs).map rowCore = _
    rw [ih, update_forecast_fst, map_rowCore_forecast_write]

theorem writeForecastSeq_getElem (fvals : List ℚ) :
    ∀ (t : List Row) (s j : Nat) (r : Row), t[j]? = some r →
      (writeForecastSeq t s fvals)[j]? =
        some (if s ≤ r.date ∧ r.date < s + fvals.length
              then { r with forecast := some (pyInt (fvals.getD (r.date - s) 0)) }
              else r) := by
  induction fvals with
  | nil =>
    intro t s j r hj
    have hc : ¬ (s ≤ r.date ∧ r.date < s + ([] : List ℚ).length) := by
      simp only [List.length_nil]
      omega
    show t[j]? = _
    rw [hj, if_neg hc]
  | cons v vs ih =>
    intro t s j r hj
    show (writeForecastSeq (update_forecast t s (pyInt v)).1 (s + 1) vs)[j]? = _
    rw [update_forecast_fst]
    by_cases hrs : r.date = s
    · have hj2 : (t.map (fun x => if x.date = s then { x with forecast := some (pyInt v) }
          else x))[j]? = some { r with forecast := some (pyInt v) } := by
        rw [List.getElem?_map, hj]
        simp [hrs]
      rw [ih _ (s + 1) j _ hj2]
      have hdlt : ¬ ((s + 1 ≤ ({ r with forecast := some (pyInt v) } : Row).date) ∧
          ({ r with forecast := some (pyInt v) } : Row).date < s + 1 + vs.length) := by
        show ¬ (s + 1 ≤ r.date ∧ r.date < s + 1 + vs.length)
        omega
      rw [if_neg hdlt,
        if_pos (show s ≤ r.date ∧ r.date < s + (v :: vs).length by
          simp only [List.length_cons]
          omega)]
      have hidx : r.date - s = 0 := by omega
      rw [hidx, List.getD_cons_zero]
    · have hj2 : (t.map (fun x => if x.date = s then { x with forecast := some (pyInt v) }
          else x))[j]? = some r := by
        rw [List.getElem?_map, hj]
        simp [hrs]
      rw [ih _ (s + 1) j _ hj2]
      by_cases hc : s + 1 ≤ r.date ∧ r.date < s + 1 + vs.length
      · rw [if_pos hc,
          if_pos (show s ≤ r.date ∧ r.date < s + (v :: vs).length by
            simp only [List.length_cons]
            omega)]
        have hidx : r.date - s = (r.date - (s + 1)) + 1 := by omega
        rw [hidx, List.getD_cons_succ]
      · rw [if_neg hc,
          if_neg (show ¬ (s ≤ r.date ∧ r.date < s + (v :: vs).length) by
            simp only [List.length_cons]
            omega)]

/-- Counterexample for C2: anchor 10 (day numbers for 2024-01-10..13),
three forecast values.  The claim predicts the writes land on dates
11-13, i.e. a forecast column of `[none, 3, 5, 6]`; the code starts
writing at the anchor itself, producing `[3, 5, 6, none]`. -/
theorem calculate_demand_forecast_anchor_cex :
    (calculate_demand_forecast_persist
        [⟨10, 1, 1, none, 0⟩, ⟨11, 1, 1, none, 0⟩, ⟨12, 1, 1, none, 0⟩, ⟨13, 1, 1, none, 0⟩]
        (some 10) [3, 5, 6]).map (fun r => r.forecast) =
      [some 3, some 5, some 6, none] ∧
    ¬ ((calculate_demand_forecast_persist
        [⟨10, 1, 1, none, 0⟩, ⟨11, 1, 1, none, 0⟩, ⟨12, 1, 1, none, 0⟩, ⟨13, 1, 1, none, 0⟩]
        (some 10) [3, 5, 6]).map (fun r => r.forecast) =
      [none, some 3, some 5, some 6]) := by
  have h : (calculate_demand_forecast_persist
      [⟨10, 1, 1, none, 0⟩, ⟨11, 1, 1, none, 0⟩, ⟨12, 1, 1, none, 0⟩, ⟨13, 1, 1, none, 0⟩]
      (some 10) [3, 5, 6]).map (fun r => r.forecast) = [some 3, some 5, some 6, none] := by
    simp [calculate_demand_forecast_persist, writeForecastSeq, update_forecast, pyInt]
  refine ⟨h, ?_⟩
  rw [h]
  simp

/-- C2 (amended): with an anchor, the forecast values are persisted
starting at the anchor date itself, advancing one calendar day per
element; each persisted value is the `int(...)` truncation of the
corresponding rational; rows outside the written range and the demand,
production plan and inventory of every row are unchanged; missing dates
are silently skipped. -/
theorem calculate_demand_forecast_persist_at_anchor (t : List Row) (s : Nat)
    (fvals : List ℚ) :
    ((calculate_demand_forecast_persist t (some s) fvals).map rowCore = t.map rowCore) ∧
    (∀ (j : Nat) (r : Row), t[j]? = some r →
      (calculate_demand_forecast_persist t (some s) fvals)[j]? =
        some (if s ≤ r.date ∧ r.date < s + fvals.length
              then { r with forecast := some (pyInt (fvals.getD (r.date - s) 0)) }
              else r)) := by
  unfold calculate_demand_forecast_persist
  by_cases hf : fvals = []
  · subst hf
    rw [if_pos rfl]
    refine ⟨rfl, fun j r hj => ?_⟩
    have hc : ¬ (s ≤ r.date ∧ r.date < s + ([] : List ℚ).length) := by
      simp only [List.length_nil]
      omega
    rw [hj, if_neg hc]
  · rw [if_neg hf]
    by_cases ht : t = []
    · subst ht
      rw [if_pos rfl]
      refine ⟨rfl, fun j r hj => ?_⟩
      simp at hj
    · rw [if_neg ht]
      exact ⟨writeForecastSeq_map_rowCore fvals t s,
        fun j r hj => writeForecastSeq_getElem fvals t s j r hj⟩

/-- Witness for C2 (amended) on a two-row table: the anchored write hits
the row at the anchor date, truncating 5/2 to 2. -/
theorem calculate_demand_forecast_persist_at_anchor_witness :
    (calculate_demand_forecast_persist [⟨4, 1, 2, none, 3⟩, ⟨6, 1, 2, some 9, 3⟩]
        (some 6) [5/2])[1]? = some ⟨6, 1, 2, some 2, 3⟩ := by
  have h := (calculate_demand_forecast_persist_at_anchor
    [⟨4, 1, 2, none, 3⟩, ⟨6, 1, 2, some 9, 3⟩] 6 [5/2]).2 1 ⟨6, 1, 2, some 9, 3⟩ rfl
  rw [h]
  norm_num [pyInt]

/-- Row insertion keeping the date-sorted representation of the table
(`INSERT INTO daily_data ...`; the table is keyed by date and every read
is `ORDER BY date`, so the model keeps the list sorted). -/
def insertSorted (nr : Row) : List Row → List Row
  | [] => [nr]
  | r :: rs => if nr.date ≤ r.date then nr :: r :: rs else r :: insertSorted nr rs

/-- Per-date body of the insert loop of `db_utils.generate_future_data`:
`SELECT COUNT(*) ... WHERE date = d`; if the row exists, `UPDATE` its
demand, production plan, forecast and inventory, else `INSERT` the new
row. -/
def upsertRow (t : List Row) (nr : Row) : List Row :=
  if t.any (fun r => decide (r.date = nr.date)) then
    t.map (fun r => if r.date = nr.date then nr else r)
  else insertSorted nr t

/-- Rows produced by `db_utils.generate_future_data`: consecutive dates
from `start`, demand, production plan and forecast drawn from the random
arrays (modelled as the input functions `dv`, `pv`, `fv` indexed like
the numpy arrays), inventory the running balance threaded from the
carry-in. -/
def genRows (start : Nat) (dv pv fv : Nat → Int) : Int → Nat → Nat → List Row
  | _, _, 0 => []
  | c, i, n + 1 =>
    { date := start + i, demand := dv i, production_plan := pv i,
      forecast := some (fv i), inventory := c + pv i - dv i } ::
      genRows start dv pv fv (c + pv i - dv i) (i + 1) n

/-- `db_utils.generate_future_data(start_date, days)`: read the
inventory of the last stored date before `start` as carry-in, compute
the generated rows with their running inventory, then insert-or-update
each date in order.  No recalculation pass is run afterwards. -/
def generate_future_data (t : List Row) (start days : Nat)
    (dv pv fv : Nat → Int) : List Row :=
  (genRows start dv pv fv (prevInventory t start) 0 days).foldl upsertRow t

/-- Insert loop of `generate_future_data` with an injected failure: the
row whose insert raises is modelled by `fails`; `none` means the
exception escaped the loop before `conn.commit()`. -/
def insertLoopExc (fails : Row → Bool) : List Row → List Row → Option (List Row)
  | t, [] => some t
  | t, r :: rs => if fails r then none else insertLoopExc fails (upsertRow t r) rs

/-- `db_utils.generate_future_data` under an injected per-row insert
failure: the loop has no row-level handler, so the exception propagates
to the outer handler, which logs it and returns the error message; the
uncommitted work is discarded when the connection closes (`false` tags
the error return). -/
def generate_future_data_fallible (fails : Row → Bool) (t : List Row) (start days : Nat)
    (dv pv fv : Nat → Int) : List Row × Bool :=
  match insertLoopExc fails t (genRows start dv pv fv (prevInventory t start) 0 days) with
  | some t2 => (t2, true)
  | none => (t, false)

/-- Dates of a row list are the consecutive run starting at `x`. -/
def ConsecFrom : Nat → List Row → Prop
  | _, [] => True
  | x, r :: rs => r.date = x ∧ ConsecFrom (x + 1) rs

theorem genRows_length (start : Nat) (dv pv fv : Nat → Int) :
    ∀ (n i : Nat) (c : Int), (genRows start dv pv fv c i n).length = n := by
  intro n
  induction n with
  | zero => intro i c; rfl
  | succ n ih =>
    intro i c
    simp only [genRows, List.length_cons, ih]

theorem genRows_consec (start : Nat) (dv pv fv : Nat → Int) :
    ∀ (n i : Nat) (c : Int), ConsecFrom (start + i) (genRows start dv pv fv c i n) := by
  intro n
  induction n with
  | zero => intro i c; trivial
  | succ n ih =>
    intro i c
    exact ⟨rfl, ih (i + 1) (c + pv i - dv i)⟩

theorem chainOk_genRows (start : Nat) (dv pv fv : Nat → Int) (p : Nat → Bool) :
    ∀ (n i : Nat) (c : Int), chainOk c p (genRows start dv pv fv c i n) = true := by
  intro n
  induction n with
  | zero => intro i c; rfl
  | succ n ih =>
    intro i c
    simp only [genRows, chainOk, beq_self_eq_true, Bool.or_true, Bool.true_and]
    exact ih (i + 1) (c + pv i - dv i)

theorem insertSorted_append_low (nr : Row) :
    ∀ (A B : List Row), (∀ a ∈ A, a.date < nr.date) →
      insertSorted nr (A ++ B) = A ++ insertSorted nr B := by
  intro A
  induction A with
  | nil => intro B _; rfl
  | cons a as ih =>
    intro B hA
    have ha : a.date < nr.date := hA a (by simp)
    simp only [List.cons_append, insertSorted, if_neg (by omega : ¬ nr.date ≤ a.date)]
    exact congrArg (List.cons a) (ih B (fun x hx => hA x (by simp [hx])))

theorem upsert_split (nr : Row) (A B : List Row)
    (hA : ∀ a ∈ A, a.date < nr.date) (hB : SortedT B) (hBge : ∀ b ∈ B, nr.date ≤ b.date) :
    upsertRow (A ++ B) nr = A ++ nr :: B.filter (fun b => decide (nr.date < b.date)) := by
  cases B with
  | nil =>
    have hany : (A ++ []).any (fun r => decide (r.date = nr.date)) = false := by
      rw [List.any_eq_false]
      intro a ha
      rw [List.append_nil] at ha
      have := hA a ha
      simp
      omega
    rw [upsertRow, if_neg (by rw [hany]; simp)]
    rw [insertSorted_append_low nr A [] hA]
    rfl
  | cons b B2 =>
    rcases List.pairwise_cons.mp hB with ⟨hb2, hB2sorted⟩
    by_cases hbd : b.date = nr.date
    · have hany : (A ++ b :: B2).any (fun r => decide (r.date = nr.date)) = true := by
        rw [List.any_eq_true]
        exact ⟨b, by simp, by simp [hbd]⟩
      rw [upsertRow, if_pos hany, List.map_append, List.map_cons, if_pos hbd]
      have hfb : ¬ nr.date < b.date := by omega
      rw [List.filter_cons, if_neg (by simpa using hfb)]
      have hB2filter : B2.filter (fun x => decide (nr.date < x.date)) = B2 := by
        rw [List.filter_eq_self]
        intro x hx
        have := hb2 x hx
        simp only [decide_eq_true_eq]
        omega
      rw [hB2filter]
      congr 1
      · exact map_eq_self_of (fun a ha => by
          have := hA a ha
          simp
          omega)
      · congr 1
        exact map_eq_self_of (fun x hx => by
          have := hb2 x hx
          have : ¬ x.date = nr.date := by omega
          simp [this])
    · have hbgt : nr.date < b.date := by
        have := hBge b (by simp)
        omega
      have hany : (A ++ b :: B2).any (fun r => decide (r.date = nr.date)) = false := by
        rw [List.any_eq_false]
        intro a ha
        rcases List.mem_append.mp ha with h | h
        · have := hA a h
          simp
          omega
        · rcases List.mem_cons.mp h with h | h
          · subst h
            simp
            omega
          · have := hb2 a h
            simp
            omega
      rw [upsertRow, if_neg (by rw [hany]; simp)]
      rw [insertSorted_append_low nr A (b :: B2) hA]
      have hins : insertSorted nr (b :: B2) = nr :: b :: B2 := by
        rw [insertSorted, if_pos (by omega : nr.date ≤ b.date)]
      rw [hins, List.filter_cons, if_pos (by simpa using hbgt)]
      have hB2filter : B2.filter (fun x => decide (nr.date < x.date)) = B2 := by
        rw [List.filter_eq_self]
        intro x hx
        have := hb2 x hx
        simp only [decide_eq_true_eq]
        omega
      rw [hB2filter]

theorem foldl_upsert_split :
    ∀ (g : List Row) (x : Nat) (P S : List Row),
      ConsecFrom x g → (∀ p ∈ P, p.date < x) → SortedT S → (∀ s ∈ S, x ≤ s.date) →
      List.foldl upsertRow (P ++ S) g =
        P ++ (g ++ S.filter (fun s => decide (x + g.length ≤ s.date))) := by
  intro g
  induction g with
  | nil =>
    intro x P S _ _ _ hSge
    have hfilter : S.filter (fun s => decide (x + ([] : List Row).length ≤ s.date)) = S := by
      rw [List.filter_eq_self]
      intro s hs
      have := hSge s hs
      simp only [List.length_nil, decide_eq_true_eq]
      omega
    rw [List.foldl_nil, hfilter, List.nil_append]
  | cons r g2 ih =>
    intro x P S hcons hP hSsorted hSge
    rcases hcons with ⟨hrd, hcons2⟩
    rw [List.foldl_cons,
      upsert_split r P S (fun p hp => by rw [hrd]; exact hP p hp) hSsorted
        (fun s hs => by rw [hrd]; exact hSge s hs)]
    have hfe : S.filter (fun b => decide (r.date < b.date)) =
        S.filter (fun b => decide (x + 1 ≤ b.date)) := by
      apply List.filter_congr
      intro s _
      apply decide_eq_decide.mpr
      omega
    rw [hfe]
    have happ : P ++ r :: S.filter (fun b => decide (x + 1 ≤ b.date)) =
        (P ++ [r]) ++ S.filter (fun b => decide (x + 1 ≤ b.date)) := by
      simp
    rw [happ]
    rw [ih (x + 1) (P ++ [r]) (S.filter (fun b => decide (x + 1 ≤ b.date))) hcons2
      (by
        intro p hp
        rcases List.mem_append.mp hp with h | h
        · have := hP p h
          omega
        · simp only [List.mem_singleton] at h
          subst h
          omega)
      (List.Pairwise.filter _ hSsorted)
      (fun s hs => by
        have := List.of_mem_filter hs
        simpa using this)]
    have hff : (S.filter (fun b => decide (x + 1 ≤ b.date))).filter
        (fun s => decide (x + 1 + g2.length ≤ s.date)) =
        S.filter (fun s => decide (x + (r :: g2).length ≤ s.date)) := by
      rw [List.filter_filter]
      apply List.filter_congr
      intro s _
      simp only [List.length_cons, Bool.and_eq_true, decide_eq_true_eq]
      apply Bool.eq_iff_iff.mpr
      simp only [Bool.and_eq_true, decide_eq_true_eq]
      omega
    rw [hff]
    simp

/-- Counterexample for C3: table with stored dates 0 and 5, generation
from date 1 for 2 days.  The date-5 row keeps its stale inventory (no
recalculation runs after generation), so the cumulative invariant fails
on the stored dates at or after the start date. -/
theorem generate_future_data_after_range_cex :
    chainOk 0 (fun x => decide (1 ≤ x))
      (generate_future_data [⟨0, 0, 0, none, 0⟩, ⟨5, 0, 0, none, 0⟩] 1 2
        (fun _ => 10) (fun _ => 20) (fun _ => 0)) = false := by
  decide

/-- C3 (amended): after `generate_future_data(start_date, days)`, the
cumulative inventory invariant holds for every stored date inside the
generated range `[start, start + days)`, with the carry-in taken from
the last stored date before `start` (0 if none; on an initially empty
table the first generated row gets `production_plan - demand`).  Stored
dates after the generated range are not recalculated. -/
theorem generate_future_data_range_invariant (t : List Row) (start days : Nat)
    (dv pv fv : Nat → Int) (hs : SortedT t) :
    chainOk 0 (fun x => decide (start ≤ x) && decide (x < start + days))
      (generate_future_data t start days dv pv fv) = true := by
  have hsplit := filter_split_sorted hs start
  have hfold := foldl_upsert_split (genRows start dv pv fv (prevInventory t start) 0 days)
    start (t.filter (fun r => decide (r.date < start)))
    (t.filter (fun r => decide (start ≤ r.date)))
    (genRows_consec start dv pv fv days 0 (prevInventory t start))
    (fun p hp => by
      have := List.of_mem_filter hp
      simpa using this)
    (List.Pairwise.filter _ hs)
    (fun s hs2 => by
      have := List.of_mem_filter hs2
      simpa using this)
  rw [hsplit] at hfold
  unfold generate_future_data
  rw [hfold, chainOk_append, chainOk_append]
  have hP : chainOk 0 (fun x => decide (start ≤ x) && decide (x < start + days))
      (t.filter (fun r => decide (r.date < start))) = true := by
    apply chainOk_of_none
    intro r hr
    have := List.of_mem_filter hr
    simp only [decide_eq_true_eq] at this
    have hd : decide (start ≤ r.date) = false := by
      simp only [decide_eq_false_iff_not]
      omega
    rw [hd, Bool.false_and]
  have hG : chainOk
      (lastInv 0 (t.filter (fun r => decide (r.date < start))))
      (fun x => decide (start ≤ x) && decide (x < start + days))
      (genRows start dv pv fv (prevInventory t start) 0 days) = true := by
    rw [← prevInventory_eq_lastInv t start]
    exact chainOk_genRows start dv pv fv _ days 0 (prevInventory t start)
  have hS : chainOk
      (lastInv (lastInv 0 (t.filter (fun r => decide (r.date < start))))
        (genRows start dv pv fv (prevInventory t start) 0 days))
      (fun x => decide (start ≤ x) && decide (x < start + days))
      ((t.filter (fun r => decide (start ≤ r.date))).filter
        (fun s => decide (start +
          (genRows start dv pv fv (prevInventory t start) 0 days).length ≤ s.date))) = true := by
    apply chainOk_of_none
    intro r hr
    have h1 := List.of_mem_filter hr
    rw [genRows_length start dv pv fv days 0 (prevInventory t start)] at h1
    simp only [decide_eq_true_eq] at h1
    have hd : decide (r.date < start + days) = false := by
      simp only [decide_eq_false_iff_not]
      omega
    rw [hd, Bool.and_false]
  rw [hP, hG, hS]
  rfl

/-- Witness for C3 (amended) on a table with a gap and a stray later
row, generating three days from date 2. -/
theorem generate_future_data_range_invariant_witness :
    chainOk 0 (fun x => decide (2 ≤ x) && decide (x < 2 + 3))
      (generate_future_data [⟨0, 1, 2, none, 7⟩, ⟨9, 3, 4, none, 5⟩] 2 3
        (fun i => Int.ofNat i + 6) (fun i => 2 * Int.ofNat i) (fun _ => 1)) = true :=
  generate_future_data_range_invariant [⟨0, 1, 2, none, 7⟩, ⟨9, 3, 4, none, 5⟩] 2 3
    (fun i => Int.ofNat i + 6) (fun i => 2 * Int.ofNat i) (fun _ => 1) (by decide)

theorem insertLoopExc_eq (fails : Row → Bool) :
    ∀ (g : List Row) (t : List Row),
      insertLoopExc fails t g =
        if g.any fails then none else some (g.foldl upsertRow t) := by
  intro g
  induction g with
  | nil => intro t; rfl
  | cons r rs ih =>
    intro t
    by_cases hf : fails r
    · simp [insertLoopExc, hf]
    · simp only [insertLoopExc, if_neg hf, List.any_cons, Bool.or_eq_true,
        List.foldl_cons]
      rw [ih (upsertRow t r)]
      simp [hf]

/-- Counterexample for C4: on an empty table, generating two days (dates
0 and 1) with the insert of the date-0 row failing.  The claim predicts
the date-1 row is still inserted; instead the exception aborts the whole
batch before the commit, the error return leaves the table empty, and in
particular no row with date 1 exists. -/
theorem generate_future_data_row_failure_cex :
    generate_future_data_fallible (fun r => decide (r.date = 0)) [] 0 2
        (fun _ => 0) (fun _ => 0) (fun _ => 0) = ([], false) ∧
    (generate_future_data_fallible (fun r => decide (r.date = 0)) [] 0 2
        (fun _ => 0) (fun _ => 0) (fun _ => 0)).1.any
      (fun r => decide (r.date = 1)) = false := by
  constructor <;> decide

/-- C4 (amended): a failing row insert in `generate_future_data` is not
handled per-row: the first failure aborts the loop, the outer handler
logs it and returns the error message, and since the commit is never
reached no generated row is persisted — the table is exactly its
pre-call state.  Without any failure all rows are inserted. -/
theorem generate_future_data_failure_aborts_batch (fails : Row → Bool) (t : List Row)
    (start days : Nat) (dv pv fv : Nat → Int) :
    generate_future_data_fallible fails t start days dv pv fv =
      if (genRows start dv pv fv (prevInventory t start) 0 days).any fails
      then (t, false)
      else (generate_future_data t start days dv pv fv, true) := by
  unfold generate_future_data_fallible generate_future_data
  rw [insertLoopExc_eq]
  by_cases h : (genRows start dv pv fv (prevInventory t start) 0 days).any fails <;>
    simp [h]

end AICase
